import Mathlib

/-!
Verification of the invokej CLI task runner core (src/cli.js):
command parsing, method resolution, task discovery, documentation
extraction and method-signature reconstruction.

Strings are modelled as lists of characters (JS strings are sequences of
UTF-16 units; all inputs of interest here are ASCII, where the two views
agree).  JS runtime values are modelled by the inductive type JsVal, and
JS objects by JsObj: an ordered own-property list together with the
prototype link, so that property lookup walks the prototype chain exactly
as the interpreter does.
-/

namespace Invokej

abbrev Str := List Char

/-- JS whitespace class (the ASCII part of the \s regex class and of
String.prototype.trim; all inputs considered here are ASCII). -/
def isWsChar (c : Char) : Bool :=
  c = ' ' || c = '\t' || c = '\n' || c = '\r' || c = '\x0b' || c = '\x0c'

/-- The regex word class \w, i.e. [A-Za-z0-9_]. -/
def isWordChar (c : Char) : Bool :=
  (('a' ≤ c && c ≤ 'z') || ('A' ≤ c && c ≤ 'Z') || ('0' ≤ c && c ≤ '9') || c = '_')

/-- JS String.prototype.includes for a single-character needle. -/
def strContains (s : Str) (ch : Char) : Bool :=
  match s with
  | [] => false
  | c :: rest => c = ch || strContains rest ch

/-- JS String.prototype.startsWith: the first argument is the candidate
prefix text, the second the string inspected. -/
def strStarts (pre s : Str) : Bool :=
  match pre, s with
  | [], _ => true
  | _ :: _, [] => false
  | p :: ps, c :: cs => p = c && strStarts ps cs

/-- JS String.prototype.split with a single-character separator: the list
of separating positions cuts the string into segments, empty segments
included ("a:".split gives two segments, the second empty). -/
def splitOnChar (sep : Char) : Str → List Str
  | [] => [[]]
  | c :: rest =>
    if c = sep then [] :: splitOnChar sep rest
    else
      match splitOnChar sep rest with
      | [] => [[c]]
      | h :: t => (c :: h) :: t

/-- JS String.prototype.trim (ASCII whitespace). -/
def jsTrim (s : Str) : Str :=
  ((s.dropWhile isWsChar).reverse.dropWhile isWsChar).reverse

/-- JS str.replace with the pattern matching runs of whitespace, replaced
by a single space: every maximal whitespace run collapses to one ' '. -/
def collapseWs : Str → Str
  | [] => []
  | [c] => if isWsChar c then [' '] else [c]
  | c1 :: c2 :: rest =>
    if isWsChar c1 && isWsChar c2 then collapseWs (c2 :: rest)
    else (if isWsChar c1 then ' ' else c1) :: collapseWs (c2 :: rest)

/-- JS Array.prototype.join with a separator string. -/
def joinSep (sep : Str) : List Str → Str
  | [] => []
  | [x] => x
  | x :: y :: rest => x ++ sep ++ joinSep sep (y :: rest)

/-- A name is private in invokej when it starts with an underscore
(JS name.startsWith with an underscore argument). -/
def startsUnderscore : Str → Bool
  | '_' :: _ => true
  | _ => false

def ctorName : Str := ("constructor").data

/-! ## The JS value and object model -/

mutual
/-- The JS runtime values the CLI core inspects: undefined, null,
strings, callables (identified by a tag standing for their body) and
objects/arrays carrying their property storage. -/
inductive JsVal : Type where
  | undefined : JsVal
  | nullV : JsVal
  | strV : List Char → JsVal
  | funcV : Nat → JsVal
  | objV : JsObj → JsVal
  | arrV : JsObj → JsVal

/-- A JS object: the ordered list of own properties and the prototype
link; nullObj is the null prototype terminating every chain. -/
inductive JsObj : Type where
  | mkObj : List (List Char × JsVal) → JsObj → JsObj
  | nullObj : JsObj
end

/-- typeof v is the string "function". -/
def isFunction : JsVal → Bool
  | .funcV _ => true
  | _ => false

/-- Own-property list of an object. -/
def objProps : JsObj → List (Str × JsVal)
  | .mkObj props _ => props
  | .nullObj => []

/-- Object.getOwnPropertyNames. -/
def ownNames (o : JsObj) : List Str :=
  (objProps o).map Prod.fst

/-- JS property read o[name]: own properties first, then the prototype
chain, undefined when the chain is exhausted. -/
def getProp : JsObj → Str → JsVal
  | .nullObj, _ => .undefined
  | .mkObj props proto, name =>
    match props.find? (fun p => p.1 == name) with
    | some p => p.2
    | none => getProp proto name

/-- Object.getOwnPropertyNames of Object.getPrototypeOf: the own-property
names of the immediate prototype.  (A null prototype would make the real
call throw; class instances always have one, and the model returns the
empty list in that unreachable corner.) -/
def protoOwnNames : JsObj → List Str
  | .mkObj _ proto => ownNames proto
  | .nullObj => []

/-! ## Command parsing and resolution (src/cli.js lines 43-79) -/

/-- parseCommand from src/cli.js: try the separators ':' then '.'; on the
first one contained in the token, split and take the first two segments
(JS array destructuring ignores the rest); otherwise the whole token is
the method and the namespace is null (modelled as none).  For a
one-character separator, a successful includes-test guarantees at least
two segments, so the getD defaults are never taken. -/
def parseCommand (command : Str) : Option Str × Str :=
  if strContains command ':' then
    let parts := splitOnChar ':' command
    (some (parts.getD 0 []), parts.getD 1 [])
  else if strContains command '.' then
    let parts := splitOnChar '.' command
    (some (parts.getD 0 []), parts.getD 1 [])
  else (none, command)

/-- JS truthiness of the parsed namespace: null and the empty string are
falsy, every other string is truthy. -/
def truthy : Option Str → Bool
  | none => false
  | some s => !(s == [])

/-- The legacy fallback inside resolveMethod: build the flattened name
namespace_method; when the inst exposes it as a callable, succeed
with the inst as target, flagging that the deprecation warning was
printed (the Bool of the result). -/
def legacyPath (inst : JsObj) (nsName method : Str) :
    Option (JsObj × JsVal × Bool) :=
  let underscoreMethod := nsName ++ '_' :: method
  if isFunction (getProp inst underscoreMethod) then
    some (inst, getProp inst underscoreMethod, true)
  else none

/-- resolveMethod from src/cli.js.  With a truthy namespace: when
inst[namespace] is a non-null value of typeof "object" (objects and
arrays both satisfy that test) exposing the method as a callable, bind to
it; otherwise try the legacy flattened name; otherwise fail.  With a
falsy namespace: succeed iff inst[method] is callable. -/
def resolveMethod (inst : JsObj) (ns? : Option Str) (method : Str) :
    Option (JsObj × JsVal × Bool) :=
  if truthy ns? then
    let nsName := ns?.getD []
    match getProp inst nsName with
    | .objV o =>
      if isFunction (getProp o method) then some (o, getProp o method, false)
      else legacyPath inst nsName method
    | .arrV o =>
      if isFunction (getProp o method) then some (o, getProp o method, false)
      else legacyPath inst nsName method
    | _ => legacyPath inst nsName method
  else
    if isFunction (getProp inst method) then
      some (inst, getProp inst method, false)
    else none

/-- The namespace-object test of resolveMethod's first branch: the
namespace property holds a truthy value of typeof "object" whose method
member is callable. -/
def nsObjectHit (inst : JsObj) (nsName method : Str) : Bool :=
  match getProp inst nsName with
  | .objV o => isFunction (getProp o method)
  | .arrV o => isFunction (getProp o method)
  | _ => false

/-! ## Task discovery (src/cli.js lines 82-122) -/

/-- The shared member filter of discoverTasks: not "constructor", not
private-prefixed, and bound to a callable when read off the given
receiver (the full prototype-chain read the source performs). -/
def publicCallableNames (receiver : JsObj) (names : List Str) : List Str :=
  names.filter (fun m =>
    (!(m == ctorName)) && (!(startsUnderscore m)) && isFunction (getProp receiver m))

/-- Root-method discovery: own-property names of the inst's immediate
prototype only (the source does not walk further up the chain), filtered
as above. -/
def discoverRoot (inst : JsObj) : List Str :=
  publicCallableNames inst (protoOwnNames inst)

/-- Member discovery inside one candidate namespace object. -/
def nsMethodsOf (value : JsObj) : List Str :=
  publicCallableNames value (protoOwnNames value)

/-- One step of the namespace-discovery loop: when the property value is
a non-null, non-array object (only objV passes the source's value,
typeof and Array.isArray tests) with at least one qualifying member,
record the property name with the member list. -/
def nsStep (inst : JsObj) (acc : List (Str × List Str)) (prop : Str) :
    List (Str × List Str) :=
  match getProp inst prop with
  | .objV value =>
    let nsMethods := nsMethodsOf value
    if 0 < nsMethods.length then acc ++ [(prop, nsMethods)] else acc
  | _ => acc

/-- Namespace discovery: the loop over every own property of the
instance.  The source applies no name filter to the property itself. -/
def discoverNamespaced (inst : JsObj) : List (Str × List Str) :=
  (ownNames inst).foldl (nsStep inst) []

/-- discoverTasks: the root list together with the namespaced map. -/
def discoverTasks (inst : JsObj) : List Str × List (Str × List Str) :=
  (discoverRoot inst, discoverNamespaced inst)

/-! ## Top-level dispatch (src/cli.js lines 124-171) -/

/-- Outcome of dispatching one command token: the private-method error,
the constructor error, the unknown-task error, or execution of the
resolved callable against its target (the Bool records whether the
legacy deprecation warning was printed on the way). -/
inductive Outcome : Type where
  | privateErr : Str → Outcome
  | ctorErr : Outcome
  | unknownErr : Outcome
  | exec : JsObj → JsVal → Bool → Outcome

/-- Lines 139-171 of src/cli.js: parse the token, reject a private or
constructor method name, then resolve and run. -/
def dispatch (inst : JsObj) (subcommand : Str) : Outcome :=
  let parsed := parseCommand subcommand
  if startsUnderscore parsed.2 then .privateErr parsed.2
  else if parsed.2 = ctorName then .ctorErr
  else
    match resolveMethod inst parsed.1 parsed.2 with
    | some (t, fn, w) => .exec t fn w
    | none => .unknownErr

/-- The four reserved-flag / command behaviours of the outer driver. -/
inductive CliAction : Type where
  | helpA : CliAction
  | listA : CliAction
  | versionA : CliAction
  | runA : Outcome → CliAction

/-- Whether a CLI action reached command dispatch (as opposed to one of
the three reserved-flag behaviours). -/
def CliAction.isRun : CliAction → Bool
  | .runA _ => true
  | _ => false

/-- JS argv.includes. -/
def argvHas (argv : List Str) (s : Str) : Bool :=
  argv.any (fun x => x == s)

/-- Lines 124-171 of src/cli.js: flag checks by membership anywhere in
argv, in order help, list, version; otherwise the first token is the
command. -/
def cliMain (inst : JsObj) (argv : List Str) : CliAction :=
  if argvHas argv (("-h").data) || argvHas argv (("--help").data) || argv.length = 0 then
    .helpA
  else if argvHas argv (("-l").data) || argvHas argv (("--list").data) then
    .listA
  else if argvHas argv (("--version").data) then
    .versionA
  else
    match argv with
    | [] => .helpA
    | sub :: _ => .runA (dispatch inst sub)

/-! ## Documentation extraction (src/cli.js lines 250-348)

loadTaskDocs locates the text "export class Tasks", brace-matches the
class body (counting every brace, string- and comment-blind), and runs
the method-comment regex over the body.  The regex is embedded as an
explicit backtracking scanner with the same semantics, and the classDoc
computation (source lines 256-302), which is independent of the taskDocs
map, is not needed by the claims below and is left out. -/

/-- JS String.prototype.indexOf scanning from a given index (the index
accumulates so the returned position is absolute). -/
def indexOfAux (needle : Str) : Str → Nat → Option Nat
  | [], idx => if strStarts needle [] then some idx else none
  | c :: rest, idx =>
    if strStarts needle (c :: rest) then some idx
    else indexOfAux needle rest (idx + 1)

def indexOfStr (s needle : Str) : Option Nat :=
  indexOfAux needle s 0

def indexOfFrom (s needle : Str) (start : Nat) : Option Nat :=
  indexOfAux needle (s.drop start) start

/-- The brace-matching loop of loadTaskDocs: starting at the opening
brace, increment on every brace-open, decrement on every brace-close, and
report the index where the counter returns to zero; none when the scan
runs off the end (the source then leaves closeBraceIndex at the opening
brace, handled by the caller). -/
def braceScan : Str → Nat → Int → Option Nat
  | [], _, _ => none
  | c :: rest, idx, count =>
    let c1 : Int := if c = '{' then count + 1 else count
    if c = '}' then
      (if c1 - 1 = 0 then some idx else braceScan rest (idx + 1) (c1 - 1))
    else braceScan rest (idx + 1) c1

/-- The tail of the method-comment regex after the comment close: an
identifier run of word characters, optional whitespace, then an opening
parenthesis; yields the identifier and the remaining text. -/
def docIdentTry (s : Str) : Option (Str × Str) :=
  let name := s.takeWhile isWordChar
  if name = [] then none
  else
    match (s.drop name.length).dropWhile isWsChar with
    | '(' :: rest => some (name, rest)
    | _ => none

/-- The regex tail \s*(?:async\s+)?(\w+)\s*\( after a comment close:
whitespace, then the alternative with the async keyword (which requires
at least one following whitespace character) is tried first, exactly as
the regex engine orders an optional group, falling back to a bare
identifier. -/
def parseAfterComment (s : Str) : Option (Str × Str) :=
  let s1 := s.dropWhile isWsChar
  let viaAsync : Option (Str × Str) :=
    if strStarts (("async").data) s1 then
      match s1.drop 5 with
      | c :: _ => if isWsChar c then docIdentTry ((s1.drop 5).dropWhile isWsChar) else none
      | [] => none
    else none
  match viaAsync with
  | some r => some r
  | none => docIdentTry s1

/-- The lazy group between the comment delimiters: the shortest interior
such that a comment close followed by a matching tail comes next, found
by extending the interior one character at a time exactly as the
backtracking engine does. -/
def scanComment (acc : Str) : Str → Option (Str × Str × Str)
  | [] => none
  | '*' :: '/' :: tail =>
    (match parseAfterComment tail with
     | some (name, rest2) => some (acc.reverse, name, rest2)
     | none => scanComment ('*' :: acc) ('/' :: tail))
  | c :: rest => scanComment (c :: acc) rest

/-- The global exec loop of the method-comment regex: scan left to right
for a comment opener, complete a match there if possible, and resume
after the match end; on failure resume one character further.  Each step
consumes at least one source character, so fuel equal to the length plus
one never runs out. -/
def execLoopF : Nat → Str → List (Str × Str)
  | 0, _ => []
  | _ + 1, [] => []
  | fuel + 1, c :: rest =>
    if strStarts (("/**").data) (c :: rest) then
      match scanComment [] ((c :: rest).drop 3) with
      | some (comment, name, rest2) => (comment, name) :: execLoopF fuel rest2
      | none => execLoopF fuel rest
    else execLoopF fuel rest

def methodCommentMatches (s : Str) : List (Str × Str) :=
  execLoopF (s.length + 1) s

/-- JS object-key assignment docs[name] = value: update in place when
the key exists, append otherwise. -/
def docsUpsert (docs : List (Str × Str)) (k v : Str) : List (Str × Str) :=
  match docs with
  | [] => [(k, v)]
  | (k0, v0) :: rest =>
    if k0 == k then (k0, v) :: rest else (k0, v0) :: docsUpsert rest k v

/-- The accumulation loop over regex matches: skip the constructor and
private-prefixed names, record the trimmed comment for every other
matched identifier. -/
def docsOf (pairs : List (Str × Str)) : List (Str × Str) :=
  pairs.foldl
    (fun docs p =>
      if (!(p.2 == ctorName)) && (!(startsUnderscore p.2)) then
        docsUpsert docs p.2 (jsTrim p.1)
      else docs)
    []

/-- loadTaskDocs from src/cli.js, the taskDocs computation: a pure
function of the one source text it is handed; it reads no other file. -/
def loadTaskDocs (source : Str) : List (Str × Str) :=
  match indexOfStr source (("export class Tasks").data) with
  | none => []
  | some ci =>
    match indexOfFrom source ['{'] ci with
    | none => []
    | some ob =>
      let cb := (braceScan (source.drop ob) ob 0).getD ob
      let content := (source.drop (ob + 1)).take (cb - (ob + 1))
      docsOf (methodCommentMatches content)

/-! ## Method-signature reconstruction (src/cli.js lines 350-404) -/

/-- The lazy parameter group of the signature regex: the shortest text
before a closing parenthesis that is followed by optional whitespace and
an opening brace. -/
def scanParams (acc : Str) : Str → Option Str
  | [] => none
  | c :: rest =>
    if c = ')' then
      (match rest.dropWhile isWsChar with
       | '{' :: _ => some acc.reverse
       | _ => scanParams (')' :: acc) rest)
    else scanParams (c :: acc) rest

/-- The bare-identifier alternative of the signature regex head at one
start position. -/
def identTry (s : Str) : Option (Str × Str) :=
  let name := s.takeWhile isWordChar
  if name = [] then none
  else
    match (s.drop name.length).dropWhile isWsChar with
    | '(' :: rest =>
      (match scanParams [] rest with
       | some params => some (name, params)
       | none => none)
    | _ => none

/-- The async-keyword alternative of the signature regex head, tried
first as the engine orders an optional group. -/
def asyncTry (s : Str) : Option (Str × Str) :=
  if strStarts (("async").data) s then
    match s.drop 5 with
    | c :: _ => if isWsChar c then identTry ((s.drop 5).dropWhile isWsChar) else none
    | [] => none
  else none

def tryHeadAt (s : Str) : Option (Str × Str) :=
  match asyncTry s with
  | some r => some r
  | none => identTry s

/-- Leftmost match of the signature regex over the function text. -/
def matchMethodHead : Str → Option (Str × Str)
  | [] => none
  | c :: rest =>
    (match tryHeadAt (c :: rest) with
     | some r => some r
     | none => matchMethodHead rest)

/-- The per-parameter transform of getMethodSignature: object
destructuring is simplified to its field names (per-field defaults cut at
the equals sign) with a default-object suffix when the fragment contains
an equals sign anywhere, but only when the fragment holds a complete
brace pair; array destructuring is cut at the equals sign with a
default-array suffix; rest parameters and everything else pass through
trimmed. -/
def mapParam (param : Str) : Str :=
  let trimmed := jsTrim param
  if strStarts (("\x7b")).data trimmed then
    -- The anchored regex matches iff a closing brace follows the opening
    -- one; on regex failure the source falls through the bracket and
    -- rest-parameter tests, which cannot match a brace-headed fragment,
    -- to the final pass-through.
    (if strContains (trimmed.drop 1) '}' then
      let interior := (trimmed.drop 1).takeWhile (fun c => !(c = '}'))
      let fields := joinSep ((", ").data)
        ((splitOnChar ',' interior).map
          (fun field => jsTrim ((jsTrim field).takeWhile (fun c => !(c = '=')))))
      let defaultPart := if strContains trimmed '=' then ((" = \x7b\x7d").data) else []
      '{' :: (fields ++ '}' :: defaultPart)
    else trimmed)
  else if strStarts (("[")).data trimmed then
    (jsTrim (trimmed.takeWhile (fun c => !(c = '=')))) ++
      (if strContains trimmed '=' then ((" = []").data) else [])
  else if strStarts (("...")).data trimmed then trimmed
  else trimmed

/-- The rendering step after a successful head match: empty parameter
text gives an empty pair of parentheses; otherwise whitespace is
collapsed and trimmed, the text is split on every comma, each fragment
transformed, the first fragment dropped (the shared context parameter)
and the rest joined. -/
def renderSig (name params : Str) : Str :=
  if jsTrim params = [] then name ++ (("()").data)
  else
    let cleanParams := jsTrim (collapseWs params)
    let paramList :=
      joinSep ((", ").data) (((splitOnChar ',' cleanParams).map mapParam).drop 1)
    name ++ '(' :: (paramList ++ [')'])

/-- getMethodSignature from src/cli.js, taking the function's source text
(fn.toString()) and its name property (for the fallback fn.name with the
unknown default when both fail). -/
def getMethodSignature (fnString fnName : Str) : Str :=
  match matchMethodHead fnString with
  | none => if fnName = [] then (("unknown").data) else fnName
  | some (name, params) => renderSig name params

/-! ## Concrete instances and source texts used by the theorems

privNs and privInst mirror the repository's own integration fixture: a
Tasks instance whose constructor assigns an underscore-named property
holding an object whose prototype exposes a public callable member. -/

def privNs : JsObj :=
  .mkObj [] (.mkObj [(ctorName, .funcV 0), ((("method").data), .funcV 7)] .nullObj)

def privInst : JsObj :=
  .mkObj [((("_private").data), .objV privNs)] (.mkObj [(ctorName, .funcV 0)] .nullObj)

/-- A Tasks class extending a base class: the instance's immediate
prototype owns only the child methods, the base methods sit one level
further up the chain, mirroring the repository's inherited-tasks
fixture. -/
def childInst : JsObj :=
  .mkObj []
    (.mkObj [(ctorName, .funcV 0), ((("childTask").data), .funcV 1)]
      (.mkObj [(ctorName, .funcV 0), ((("baseTask").data), .funcV 2)]
        (.mkObj [] .nullObj)))

/-- An instance whose own property named by the empty string holds a
namespace object with the public callable go (assignable in JS as an
empty-string computed key). -/
def cex4Ns : JsObj :=
  .mkObj [] (.mkObj [((("go").data), .funcV 9)] .nullObj)

def cex4Inst : JsObj :=
  .mkObj [([], .objV cex4Ns)] (.mkObj [] .nullObj)

/-- An instance exposing only the flattened callable with the name that
is one underscore followed by the letter m. -/
def cex5Inst : JsObj :=
  .mkObj [((("_m").data), .funcV 3)] (.mkObj [] .nullObj)

/-- A namespaced instance for the round-trip witness: the db own
property holds an object whose prototype exposes migrate. -/
def rtDb : JsObj :=
  .mkObj [] (.mkObj [((("migrate").data), .funcV 5)] .nullObj)

def rtInst : JsObj :=
  .mkObj [((("db").data), .objV rtDb)] (.mkObj [] .nullObj)

/-- An instance exposing only the legacy flattened callable
db_oldstyle. -/
def legacy5Inst : JsObj :=
  .mkObj [((("db_oldstyle").data), .funcV 8)] (.mkObj [] .nullObj)

def emptyInst : JsObj :=
  .mkObj [] (.mkObj [] .nullObj)

/-- A child task file whose class extends an identifier imported from a
relative module path; the parent file documents a method baseTask that
does not occur in this text. -/
def c6Source : Str :=
  ("import \x7b BaseTasks \x7d from \"./base.js\";\nexport class Tasks extends BaseTasks \x7b\n  /** Child task */\n  async childTask(c) \x7b\x7d\n\x7d\n").data

/-- A task file whose method carries a multi-line block comment with a
JSDoc tag line. -/
def c7Source : Str :=
  ("export class Tasks \x7b\n  /** First line\n   * @param x usage\n   */\n  async hello(c, x) \x7b\x7d\n\x7d\n").data

/-! ## Helper lemmas -/

theorem strContains_iff {s : Str} {ch : Char} :
    strContains s ch = true ↔ ch ∈ s := by
  induction s with
  | nil => simp [strContains]
  | cons c rest ih =>
    simp only [strContains, Bool.or_eq_true, decide_eq_true_eq, ih, List.mem_cons]
    constructor
    · rintro (h | h)
      · exact Or.inl h.symm
      · exact Or.inr h
    · rintro (h | h)
      · exact Or.inl h.symm
      · exact Or.inr h

theorem strContains_false_of_not_mem {s : Str} {ch : Char} (h : ch ∉ s) :
    strContains s ch = false := by
  cases hc : strContains s ch
  · rfl
  · exact absurd (strContains_iff.mp hc) h

theorem splitOnChar_of_not_mem {sep : Char} {a : Str} (ha : sep ∉ a) :
    splitOnChar sep a = [a] := by
  induction a with
  | nil => rfl
  | cons c rest ih =>
    have hc : ¬ c = sep := fun h => ha (h ▸ List.mem_cons_self c rest)
    simp only [splitOnChar]
    rw [if_neg hc, ih (fun h => ha (List.mem_cons_of_mem _ h))]

theorem splitOnChar_append {sep : Char} {a b : Str} (ha : sep ∉ a) :
    splitOnChar sep (a ++ sep :: b) = a :: splitOnChar sep b := by
  induction a with
  | nil => simp [splitOnChar]
  | cons c rest ih =>
    have hc : ¬ c = sep := fun h => ha (h ▸ List.mem_cons_self c rest)
    have ih2 := ih (fun h => ha (List.mem_cons_of_mem _ h))
    simp only [List.cons_append, splitOnChar, if_neg hc, List.append_eq, ih2]

/-- parseCommand on a token built from a colon-free namespace and a
colon-free method around one colon. -/
theorem parseCommand_colon {a b : Str} (ha : ':' ∉ a) (hb : ':' ∉ b) :
    parseCommand (a ++ ':' :: b) = (some a, b) := by
  have hc : strContains (a ++ ':' :: b) ':' = true :=
    strContains_iff.mpr (List.mem_append_right _ (List.mem_cons_self _ _))
  simp only [parseCommand, hc, if_true]
  rw [splitOnChar_append ha, splitOnChar_of_not_mem hb]
  rfl

theorem truthy_of_ne {ns : Str} (h : ns ≠ []) : truthy (some ns) = true := by
  simp [truthy, h]

theorem resolveMethod_ns_hit {inst : JsObj} {ns m : Str} {o : JsObj}
    (h : ns ≠ []) (ho : getProp inst ns = .objV o)
    (hf : isFunction (getProp o m) = true) :
    resolveMethod inst (some ns) m = some (o, getProp o m, false) := by
  simp [resolveMethod, truthy_of_ne h, ho, hf]

theorem resolveMethod_ns_miss {inst : JsObj} {ns m : Str}
    (h : ns ≠ []) (hmiss : nsObjectHit inst ns m = false) :
    resolveMethod inst (some ns) m = legacyPath inst ns m := by
  unfold nsObjectHit at hmiss
  cases hv : getProp inst ns <;>
    simp only [hv] at hmiss <;>
    simp [resolveMethod, truthy_of_ne h, hv, hmiss]

theorem nsStep_foldl_mem {inst : JsObj} {q : Str × List Str} :
    ∀ (props : List Str) (acc : List (Str × List Str)),
      q ∈ props.foldl (nsStep inst) acc →
      q ∈ acc ∨ ∃ value, getProp inst q.1 = JsVal.objV value ∧
        q.2 = nsMethodsOf value ∧ 0 < (nsMethodsOf value).length := by
  intro props
  induction props with
  | nil => exact fun acc h => Or.inl h
  | cons pr rest ih =>
    intro acc h
    rcases ih (nsStep inst acc pr) h with h1 | h1
    · unfold nsStep at h1
      cases hv : getProp inst pr <;> rw [hv] at h1
      case objV value =>
        by_cases hlen : 0 < (nsMethodsOf value).length
        · simp only [hlen, if_true, List.mem_append, List.mem_singleton] at h1
          rcases h1 with h2 | h2
          · exact Or.inl h2
          · refine Or.inr ⟨value, ?_, ?_, hlen⟩
            · rw [h2]; exact hv
            · rw [h2]
        · simp only [hlen, if_false] at h1
          exact Or.inl h1
      all_goals exact Or.inl h1
    · exact Or.inr h1

theorem discoverNamespaced_mem {inst : JsObj} {ns : Str} {ms : List Str}
    (h : (ns, ms) ∈ discoverNamespaced inst) :
    ∃ value, getProp inst ns = JsVal.objV value ∧ ms = nsMethodsOf value ∧
      0 < (nsMethodsOf value).length := by
  rcases nsStep_foldl_mem (ownNames inst) [] h with h1 | h1
  · exact absurd h1 (List.not_mem_nil _)
  · exact h1

/-- Membership in the discovery member filter yields its three
conjuncts. -/
theorem mem_publicCallableNames {receiver : JsObj} {names : List Str} {m : Str}
    (h : m ∈ publicCallableNames receiver names) :
    m ∈ names ∧ m ≠ ctorName ∧ startsUnderscore m = false ∧
      isFunction (getProp receiver m) = true := by
  rcases List.mem_filter.mp h with ⟨hmem, hpred⟩
  simp only [Bool.and_eq_true, Bool.not_eq_true', beq_eq_false_iff_ne] at hpred
  exact ⟨hmem, hpred.1.1, hpred.1.2, hpred.2⟩

theorem word_not_ws {c : Char} (h : isWordChar c = true) : isWsChar c = false := by
  cases hw : isWsChar c
  · rfl
  · exfalso
    simp only [isWsChar, Bool.or_eq_true, decide_eq_true_eq] at hw
    rcases hw with ((((h1 | h1) | h1) | h1) | h1) | h1 <;> subst h1 <;>
      exact absurd h (by decide)

/-- The async alternative of the signature-regex head fails on a word
run directly followed by an opening parenthesis: either the text does
not start with the keyword, or the keyword is part of the identifier and
no whitespace follows it. -/
theorem asyncTry_word_paren (name u : Str) (hn : name ≠ [])
    (hw : ∀ c ∈ name, isWordChar c = true) :
    asyncTry (name ++ '(' :: u) = none := by
  unfold asyncTry
  by_cases hst : strStarts ((("async")).data) (name ++ '(' :: u) = true
  case neg => simp [hst]
  case pos =>
    rw [if_pos hst]
    rcases name with _ | ⟨c1, name1⟩
    · exact absurd rfl hn
    rcases name1 with _ | ⟨c2, name2⟩
    · simp [strStarts] at hst
    rcases name2 with _ | ⟨c3, name3⟩
    · simp [strStarts] at hst
    rcases name3 with _ | ⟨c4, name4⟩
    · simp [strStarts] at hst
    rcases name4 with _ | ⟨c5, name5⟩
    · simp [strStarts] at hst
    simp only [List.cons_append, strStarts, Bool.and_eq_true,
      decide_eq_true_eq] at hst
    obtain ⟨e1, e2, e3, e4, e5, -⟩ := hst
    subst e1; subst e2; subst e3; subst e4; subst e5
    simp only [List.cons_append, List.drop_succ_cons, List.drop_zero]
    cases name5 with
    | nil => simp [isWsChar]
    | cons c6 rest6 =>
      have hc6 : isWsChar c6 = false := word_not_ws (hw c6 (by simp))
      simp [hc6]

/-- The bare-identifier alternative on a word run directly followed by
an opening parenthesis captures exactly the word run as the name and
hands the rest to the parameter scan. -/
theorem identTry_word_paren (name u : Str) (hn : name ≠ [])
    (hw : ∀ c ∈ name, isWordChar c = true) :
    identTry (name ++ '(' :: u) =
      (match scanParams [] u with
       | some params => some (name, params)
       | none => none) := by
  have htw : (name ++ '(' :: u).takeWhile isWordChar = name := by
    rw [List.takeWhile_append_of_pos hw]
    simp [List.takeWhile_cons, isWordChar]
  have hd : (name ++ '(' :: u).drop name.length = '(' :: u := List.drop_left _ _
  simp only [identTry, htw, hd, if_neg hn]
  simp [List.dropWhile_cons, isWsChar]

theorem tryHeadAt_word_paren (name u : Str) (hn : name ≠ [])
    (hw : ∀ c ∈ name, isWordChar c = true) :
    tryHeadAt (name ++ '(' :: u) =
      (match scanParams [] u with
       | some params => some (name, params)
       | none => none) := by
  unfold tryHeadAt
  rw [asyncTry_word_paren name u hn hw]
  exact identTry_word_paren name u hn hw

/-- Leftmost match of the signature regex on a method text beginning
with a word-run name and its parameter list: the match is found at the
start. -/
theorem matchMethodHead_word_paren (name u params : Str) (hn : name ≠ [])
    (hw : ∀ c ∈ name, isWordChar c = true) (hs : scanParams [] u = some params) :
    matchMethodHead (name ++ '(' :: u) = some (name, params) := by
  have ht := tryHeadAt_word_paren name u hn hw
  rw [hs] at ht
  rcases name with _ | ⟨n0, ntail⟩
  · exact absurd rfl hn
  simp only [List.cons_append] at ht ⊢
  simp only [matchMethodHead, ht]

theorem ne_of_word {c x : Char} (h : isWordChar c = true)
    (hx : isWordChar x = false) : c ≠ x := by
  intro he
  subst he
  rw [h] at hx
  exact absurd hx (by decide)

theorem dropWhile_all_false {p : Char → Bool} {l : Str}
    (h : ∀ c ∈ l, p c = false) : l.dropWhile p = l := by
  cases l with
  | nil => rfl
  | cons c rest => simp [List.dropWhile_cons, h c (by simp)]

theorem takeWhile_all_true {p : Char → Bool} {l : Str}
    (h : ∀ c ∈ l, p c = true) : l.takeWhile p = l := by
  induction l with
  | nil => rfl
  | cons c rest ih =>
    simp [List.takeWhile_cons, h c (by simp),
      ih (fun c hc => h c (List.mem_cons_of_mem _ hc))]

/-- A string of non-whitespace characters is its own trim. -/
theorem jsTrim_word {f : Str} (hw : ∀ c ∈ f, isWsChar c = false) :
    jsTrim f = f := by
  unfold jsTrim
  rw [dropWhile_all_false hw,
    dropWhile_all_false (fun c hc => hw c (List.mem_reverse.mp hc)),
    List.reverse_reverse]

/-- A string whose first and last characters are non-whitespace is its
own trim. -/
theorem jsTrim_of_ends {c1 c2 : Char} (mid : Str)
    (h1 : isWsChar c1 = false) (h2 : isWsChar c2 = false) :
    jsTrim (c1 :: (mid ++ [c2])) = c1 :: (mid ++ [c2]) := by
  unfold jsTrim
  have e1 : List.dropWhile isWsChar (c1 :: (mid ++ [c2])) = c1 :: (mid ++ [c2]) := by
    simp [List.dropWhile_cons, h1]
  have e2 : (c1 :: (mid ++ [c2])).reverse = c2 :: (mid.reverse ++ [c1]) := by
    simp
  have e3 : List.dropWhile isWsChar (c2 :: (mid.reverse ++ [c1])) =
      c2 :: (mid.reverse ++ [c1]) := by
    simp [List.dropWhile_cons, h2]
  rw [e1, e2, e3]
  simp

/-- Trimming strips one trailing space off a run of non-whitespace
characters. -/
theorem jsTrim_trailing_space {f : Str} (hne : f ≠ [])
    (hw : ∀ c ∈ f, isWsChar c = false) : jsTrim (f ++ [' ']) = f := by
  obtain ⟨fh, ftail, rfl⟩ := List.exists_cons_of_ne_nil hne
  unfold jsTrim
  have e1 : List.dropWhile isWsChar ((fh :: ftail) ++ [' ']) =
      (fh :: ftail) ++ [' '] := by
    simp [List.dropWhile_cons, hw fh (by simp)]
  have e2 : ((fh :: ftail) ++ [' ']).reverse = ' ' :: (fh :: ftail).reverse := by
    simp
  have e3 : List.dropWhile isWsChar (' ' :: (fh :: ftail).reverse) =
      List.dropWhile isWsChar ((fh :: ftail).reverse) := by
    simp [List.dropWhile_cons, isWsChar]
  rw [e1, e2, e3,
    dropWhile_all_false (fun c hc => hw c (List.mem_reverse.mp hc)),
    List.reverse_reverse]

/-- The lazy parameter group captures exactly the text before the
appended close: when the parameter text holds no closing parenthesis,
the scan runs through it and stops at the close that is followed by
whitespace and an opening brace. -/
theorem scanParams_capture {P : Str} (hP : ')' ∉ P) :
    ∀ acc : Str, scanParams acc (P ++ ')' :: ' ' :: ['{']) =
      some (acc.reverse ++ P) := by
  induction P with
  | nil =>
    intro acc
    show some acc.reverse = some (acc.reverse ++ [])
    rw [List.append_nil]
  | cons c P' ih =>
    intro acc
    have hc : ¬ c = ')' := fun h => hP (h ▸ List.mem_cons_self c P')
    have ih2 := ih (fun h => hP (List.mem_cons_of_mem _ h)) (c :: acc)
    simp only [List.cons_append, scanParams, if_neg hc, List.append_eq]
    rw [ih2]
    simp [List.reverse_cons, List.append_assoc]

/-- dropWhile across an append: the suffix is reached only when the
whole prefix is dropped. -/
theorem dropWhile_append_cases {p : Char → Bool} (l₁ l₂ : Str) :
    List.dropWhile p (l₁ ++ l₂) =
      (if List.dropWhile p l₁ = [] then List.dropWhile p l₂
       else List.dropWhile p l₁ ++ l₂) := by
  induction l₁ with
  | nil => simp
  | cons c l₁' ih =>
    by_cases hc : p c = true
    · simp [List.dropWhile_cons, hc, ih]
    · have hc2 : p c = false := by
        cases h : p c
        · rfl
        · exact absurd h hc
      simp [List.dropWhile_cons, hc2]

theorem mem_of_mem_dropWhile {p : Char → Bool} {l : Str} {c : Char}
    (h : c ∈ List.dropWhile p l) : c ∈ l := by
  induction l with
  | nil => exact absurd h (List.not_mem_nil c)
  | cons x l' ih =>
    rw [List.dropWhile_cons] at h
    by_cases hx : p x = true
    · rw [if_pos hx] at h
      exact List.mem_cons_of_mem _ (ih h)
    · rw [if_neg hx] at h
      exact h

/-- The per-fragment transform on a comma-free destructured-object
fragment with a single field carrying a per-field default: the field
name survives, the per-field default is cut at the equals sign, and the
default-object suffix is appended because the fragment contains an
equals sign — whatever text (an outer default or nothing) follows the
closing brace. -/
theorem mapParam_single_field (f d tail : Str) (hf : f ≠ []) (hd : d ≠ [])
    (hwf : ∀ c ∈ f, isWordChar c = true) (hwd : ∀ c ∈ d, isWordChar c = true)
    (htrim : jsTrim ('{' :: (f ++ ((((" = ")).data) ++ (d ++ '}' :: tail)))) =
      '{' :: (f ++ ((((" = ")).data) ++ (d ++ '}' :: tail)))) :
    mapParam ('{' :: (f ++ ((((" = ")).data) ++ (d ++ '}' :: tail)))) =
      '{' :: (f ++ '}' :: (((" = \x7b\x7d")).data)) := by
  have h1 : ∀ a ∈ f, (fun c => !(c = '}')) a = true := fun a ha => by
    have hne := ne_of_word (hwf a ha) (show isWordChar '}' = false by decide)
    simp [hne]
  have h2 : ∀ a ∈ d, (fun c => !(c = '}')) a = true := fun a ha => by
    have hne := ne_of_word (hwd a ha) (show isWordChar '}' = false by decide)
    simp [hne]
  have h3 : ∀ a ∈ f, (fun c => !(c = '=')) a = true := fun a ha => by
    have hne := ne_of_word (hwf a ha) (show isWordChar '=' = false by decide)
    simp [hne]
  simp only [mapParam]
  rw [htrim]
  have hS : strStarts ((("\x7b")).data)
      ('{' :: (f ++ ((((" = ")).data) ++ (d ++ '}' :: tail)))) = true := by
    simp [strStarts]
  rw [if_pos hS]
  have hdrop : ('{' :: (f ++ ((((" = ")).data) ++ (d ++ '}' :: tail)))).drop 1 =
      f ++ ((((" = ")).data) ++ (d ++ '}' :: tail)) := rfl
  rw [hdrop]
  have hC : strContains (f ++ ((((" = ")).data) ++ (d ++ '}' :: tail))) '}' = true :=
    strContains_iff.mpr (by simp)
  rw [if_pos hC]
  have hint : (f ++ ((((" = ")).data) ++ (d ++ '}' :: tail))).takeWhile
      (fun c => !(c = '}')) = f ++ (' ' :: '=' :: ' ' :: d) := by
    rw [List.takeWhile_append_of_pos h1]
    simp only [List.cons_append, List.nil_append, List.takeWhile_cons]
    rw [if_pos (by decide), if_pos (by decide), if_pos (by decide),
      List.takeWhile_append_of_pos h2, List.takeWhile_cons, if_neg (by decide)]
    simp
  rw [hint]
  have hnc : ',' ∉ f ++ (' ' :: '=' :: ' ' :: d) := by
    simp only [List.mem_append, List.mem_cons]
    rintro (h | h | h | h | h)
    · exact absurd (hwf _ h) (by decide)
    · exact absurd h (by decide)
    · exact absurd h (by decide)
    · exact absurd h (by decide)
    · exact absurd (hwd _ h) (by decide)
  rw [splitOnChar_of_not_mem hnc]
  simp only [List.map_cons, List.map_nil]
  obtain ⟨fh, ftail, rfl⟩ := List.exists_cons_of_ne_nil hf
  have hd' : d.reverse ≠ [] := by simp [hd]
  obtain ⟨dl, dr, hdr⟩ := List.exists_cons_of_ne_nil hd'
  have hdd : d = dr.reverse ++ [dl] := by
    rw [← List.reverse_reverse d, hdr]
    simp
  have hlmem : dl ∈ d := by
    rw [hdd]
    simp
  have hsh : (fh :: ftail) ++ (' ' :: '=' :: ' ' :: d) =
      fh :: ((ftail ++ (' ' :: '=' :: ' ' :: dr.reverse)) ++ [dl]) := by
    rw [hdd]
    simp [List.append_assoc]
  have htrim2 : jsTrim ((fh :: ftail) ++ (' ' :: '=' :: ' ' :: d)) =
      (fh :: ftail) ++ (' ' :: '=' :: ' ' :: d) := by
    rw [hsh]
    exact jsTrim_of_ends _ (word_not_ws (hwf fh (by simp)))
      (word_not_ws (hwd dl hlmem))
  rw [htrim2]
  have htk : ((fh :: ftail) ++ (' ' :: '=' :: ' ' :: d)).takeWhile
      (fun c => !(c = '=')) = (fh :: ftail) ++ [' '] := by
    rw [List.takeWhile_append_of_pos h3, List.takeWhile_cons, if_pos (by decide),
      List.takeWhile_cons, if_neg (by decide)]
  rw [htk, jsTrim_trailing_space hf (fun c hc => word_not_ws (hwf c hc))]
  have hE : strContains
      ('{' :: ((fh :: ftail) ++ ((((" = ")).data) ++ (d ++ '}' :: tail)))) '=' = true :=
    strContains_iff.mpr (by simp)
  rw [if_pos hE]
  rfl

/-- The per-fragment transform on a comma-free destructured-object
fragment with a single plain field: the field passes through and no
suffix is appended because the fragment contains no equals sign. -/
theorem mapParam_single_field_plain (f : Str) (hf : f ≠ [])
    (hwf : ∀ c ∈ f, isWordChar c = true) :
    mapParam ('{' :: (f ++ ['}'])) = '{' :: (f ++ ['}']) := by
  have htrim : jsTrim ('{' :: (f ++ ['}'])) = '{' :: (f ++ ['}']) :=
    jsTrim_of_ends f (by decide) (by decide)
  simp only [mapParam]
  rw [htrim]
  have hS : strStarts ((("\x7b")).data) ('{' :: (f ++ ['}'])) = true := by
    simp [strStarts]
  rw [if_pos hS]
  have hdrop : ('{' :: (f ++ ['}'])).drop 1 = f ++ ['}'] := rfl
  rw [hdrop]
  have hC : strContains (f ++ ['}']) '}' = true := strContains_iff.mpr (by simp)
  rw [if_pos hC]
  have h1 : ∀ a ∈ f, (fun c => !(c = '}')) a = true := fun a ha => by
    have hne := ne_of_word (hwf a ha) (show isWordChar '}' = false by decide)
    simp [hne]
  have hint : (f ++ ['}']).takeWhile (fun c => !(c = '}')) = f := by
    rw [List.takeWhile_append_of_pos h1, List.takeWhile_cons, if_neg (by decide)]
    simp
  rw [hint]
  have hnc : ',' ∉ f := fun h => absurd (hwf _ h) (by decide)
  rw [splitOnChar_of_not_mem hnc]
  simp only [List.map_cons, List.map_nil]
  have htf : jsTrim f = f := jsTrim_word (fun c hc => word_not_ws (hwf c hc))
  rw [htf]
  have ht2 : f.takeWhile (fun c => !(c = '=')) = f := by
    have h2 : ∀ a ∈ f, (fun c => !(c = '=')) a = true := fun a ha => by
      have hne := ne_of_word (hwf a ha) (show isWordChar '=' = false by decide)
      simp [hne]
    exact takeWhile_all_true h2
  rw [ht2, htf]
  have hE : ¬ (strContains ('{' :: (f ++ ['}'])) '=' = true) := by
    rw [strContains_false_of_not_mem ?_]
    · simp
    · simp only [List.mem_cons, List.mem_append, List.mem_singleton]
      rintro (h | h | h)
      · exact absurd h (by decide)
      · exact absurd (hwf _ h) (by decide)
      · exact absurd h (by decide)
  rw [if_neg hE]
  rfl

/-- A fragment opening a brace pair that the comma split cut apart (no
closing brace in the fragment) passes through the transform unchanged
but for trimming: the anchored regex cannot match, and the bracket and
rest-parameter tests cannot match a brace-headed string. -/
theorem mapParam_open_brace (g : Str) (hg : '}' ∉ g) :
    mapParam ('{' :: g) = jsTrim ('{' :: g) := by
  have e0 : List.dropWhile isWsChar ('{' :: g) = '{' :: g := by
    simp [List.dropWhile_cons, isWsChar]
  have e1 : ('{' :: g).reverse = g.reverse ++ ['{'] := by simp
  have hjt : jsTrim ('{' :: g) =
      (if List.dropWhile isWsChar g.reverse = [] then
        List.dropWhile isWsChar ['{']
       else List.dropWhile isWsChar g.reverse ++ ['{']).reverse := by
    unfold jsTrim
    rw [e0, e1, dropWhile_append_cases]
  have key : ∃ g', jsTrim ('{' :: g) = '{' :: g' ∧ ∀ c ∈ g', c ∈ g := by
    by_cases hnil : List.dropWhile isWsChar g.reverse = []
    · refine ⟨[], ?_, by simp⟩
      rw [hjt, if_pos hnil]
      simp [List.dropWhile_cons, isWsChar]
    · refine ⟨(List.dropWhile isWsChar g.reverse).reverse, ?_, ?_⟩
      · rw [hjt, if_neg hnil]
        simp
      · intro c hc
        exact List.mem_reverse.mp (mem_of_mem_dropWhile (List.mem_reverse.mp hc))
  obtain ⟨g', hkey, hsub⟩ := key
  simp only [mapParam]
  rw [hkey]
  have hS : strStarts ((("\x7b")).data) ('{' :: g') = true := by
    simp [strStarts]
  rw [if_pos hS]
  have hC : ¬ (strContains (('{' :: g').drop 1) '}' = true) := by
    have hdrop : ('{' :: g').drop 1 = g' := rfl
    rw [hdrop, strContains_false_of_not_mem (fun h => hg (hsub _ h))]
    simp
  rw [if_neg hC]

/-! ## Claim theorems -/

/-- C1: the claim says a command token whose namespace part starts with
an underscore is rejected with the private-access error before lookup
and the member is never executed.  The code checks only the method part:
on the repository's own fixture (an underscore-named own property
holding a namespace object with the public member named method), the
dispatcher resolves the token and executes the member (tag 7), with no
private error raised. -/
theorem C1_private_namespace_executes :
    startsUnderscore ((("_private")).data) = true ∧
    dispatch privInst ((("_private:method")).data) =
      Outcome.exec privNs (JsVal.funcV 7) false :=
  ⟨rfl, rfl⟩

/-- C2: the claim says an underscore-prefixed own property never
registers a namespace.  The discovery loop applies no name filter to the
property itself, so the private-named property is registered together
with its public member and would be listed. -/
theorem C2_private_namespace_discovered :
    startsUnderscore ((("_private")).data) = true ∧
    discoverNamespaced privInst = [(((("_private")).data), [(("method")).data])] :=
  ⟨rfl, rfl⟩

/-- C3: the claim says every public method anywhere in the ancestor
chain appears exactly once in the root discovery list.  The code reads
only the own properties of the immediate prototype: on an instance whose
class extends a base class, the inherited baseTask is callable on the
instance yet absent from the root list, which holds only the child's own
method. -/
theorem C3_superclass_method_missing :
    isFunction (getProp childInst ((("baseTask")).data)) = true ∧
    discoverRoot childInst = [((("childTask")).data)] ∧
    ((("baseTask")).data) ∉ discoverRoot childInst :=
  ⟨rfl, rfl, by decide⟩

/-- C4 counterexample: the pair with the empty-string namespace and the
member go sits in the namespaced discovery map and satisfies every
hypothesis of the claim (no separator characters, no underscore prefix),
yet resolving the round-trip token fails with the unknown-task error,
because the empty string is falsy in the resolver's namespace test. -/
theorem C4_empty_namespace_roundtrip_fails :
    ((([] : Str), [(("go")).data]) ∈ discoverNamespaced cex4Inst ∧
      (':' ∉ ([] : Str)) ∧ ('.' ∉ ([] : Str)) ∧
      (':' ∉ (("go")).data) ∧ ('.' ∉ (("go")).data) ∧
      startsUnderscore ([] : Str) = false ∧
      startsUnderscore ((("go")).data) = false) ∧
    dispatch cex4Inst (([] : Str) ++ ':' :: (("go")).data) = Outcome.unknownErr :=
  ⟨⟨by decide, by decide, by decide, by decide, by decide, rfl, rfl⟩, rfl⟩

/-- C4 (amended with a nonempty namespace name): for every pair in the
namespaced discovery map whose namespace is nonempty and whose parts are
free of separators and of the underscore prefix, resolving the token
built with a colon succeeds and returns exactly the member read off the
namespace object, with that object as the target and no legacy
warning. -/
theorem C4_namespaced_roundtrip (inst : JsObj) (ns m : Str) (ms : List Str)
    (hmem : (ns, ms) ∈ discoverNamespaced inst) (hm : m ∈ ms) (hns : ns ≠ [])
    (h1 : ':' ∉ ns) (_h2 : '.' ∉ ns) (h3 : ':' ∉ m) (_h4 : '.' ∉ m)
    (_h5 : startsUnderscore ns = false) (_h6 : startsUnderscore m = false) :
    ∃ value : JsObj, getProp inst ns = JsVal.objV value ∧
      dispatch inst (ns ++ ':' :: m) = Outcome.exec value (getProp value m) false := by
  obtain ⟨value, hv, hms, hlen⟩ := discoverNamespaced_mem hmem
  subst hms
  unfold nsMethodsOf at hm
  obtain ⟨_, hctor, hunder, hfn⟩ := mem_publicCallableNames hm
  refine ⟨value, hv, ?_⟩
  have hparse := parseCommand_colon h1 h3
  simp [dispatch, hparse, hunder, hctor, resolveMethod_ns_hit hns hv hfn]

theorem C4_witness :
    ∃ value : JsObj, getProp rtInst ((("db")).data) = JsVal.objV value ∧
      dispatch rtInst (((("db")).data) ++ ':' :: ((("migrate")).data)) =
        Outcome.exec value (getProp value ((("migrate")).data)) false :=
  C4_namespaced_roundtrip rtInst ((("db")).data) ((("migrate")).data)
    [(("migrate")).data] (by decide) (by decide) (by decide) (by decide)
    (by decide) (by decide) (by decide) (by decide) (by decide)

/-- C5 counterexample: the token made of a colon followed by the letter
m parses to the empty-string namespace and the method m; the instance
exposes no namespace object but does expose the flattened callable
(underscore then m), so the claim demands a successful legacy
resolution, yet the resolver takes the root branch (the empty string is
falsy) and fails. -/
theorem C5_empty_namespace_legacy_fails :
    parseCommand (((":m")).data) = (some ([] : Str), (("m")).data) ∧
    getProp cex5Inst ([] : Str) = JsVal.undefined ∧
    isFunction (getProp cex5Inst (([] : Str) ++ '_' :: (("m")).data)) = true ∧
    resolveMethod cex5Inst (some ([] : Str)) ((("m")).data) = none ∧
    dispatch cex5Inst (((":m")).data) = Outcome.unknownErr :=
  ⟨rfl, rfl, rfl, rfl, rfl⟩

/-- C5 (amended with a nonempty namespace name): for every token parsed
into a nonempty namespace and a method, when the namespace-object path
misses, resolution succeeds through the flattened legacy name exactly
when that name is callable on the instance (with the instance as target
and the deprecation warning emitted), and fails otherwise. -/
theorem C5_legacy_fallback (inst : JsObj) (t ns m : Str)
    (_hp : parseCommand t = (some ns, m)) (hns : ns ≠ [])
    (hmiss : nsObjectHit inst ns m = false) :
    (isFunction (getProp inst (ns ++ '_' :: m)) = true →
       resolveMethod inst (some ns) m =
         some (inst, getProp inst (ns ++ '_' :: m), true)) ∧
    (isFunction (getProp inst (ns ++ '_' :: m)) = false →
       resolveMethod inst (some ns) m = none) := by
  rw [resolveMethod_ns_miss hns hmiss]
  constructor
  · intro hfn
    simp [legacyPath, hfn]
  · intro hfn
    simp [legacyPath, hfn]

theorem C5_witness :
    resolveMethod legacy5Inst (some ((("db")).data)) ((("oldstyle")).data) =
      some (legacy5Inst,
        getProp legacy5Inst (((("db")).data) ++ '_' :: ((("oldstyle")).data)),
        true) :=
  (C5_legacy_fallback legacy5Inst ((("db:oldstyle")).data) ((("db")).data)
    ((("oldstyle")).data) (by decide) (by decide) (by decide)).1 (by decide)

/-- C6: the claim says the extractor follows the extends clause through
the relative import, reads the parent file and merges its method docs as
a base layer.  loadTaskDocs is a function of the one source text alone:
on a child file extending an imported base class, the result holds only
the child's own documented method and no entry for the parent's
baseTask. -/
theorem C6_no_superclass_docs :
    loadTaskDocs c6Source = [(((("childTask")).data), (("Child task")).data)] ∧
    List.lookup ((("baseTask")).data) (loadTaskDocs c6Source) = none :=
  ⟨rfl, rfl⟩

/-- C7: the claim says only the first content line of the block comment
(after stripping asterisks and dropping tag lines) is recorded.  The
code stores the whole trimmed comment interior: on a two-line comment
with a JSDoc tag, the recorded doc keeps the newline, the asterisk and
the tag line, and differs from the first line. -/
theorem C7_full_comment_recorded :
    loadTaskDocs c7Source =
      [(((("hello")).data), (("First line\n   * @param x usage")).data)] ∧
    ((("First line\n   * @param x usage")).data) ≠ (("First line")).data :=
  ⟨rfl, by decide⟩

/-- C8: a token containing a colon anywhere splits on the colon even
when a dot occurs earlier; otherwise a token containing a dot splits on
the dot; otherwise the whole token is the method with a null namespace.
The namespace is the first segment, the method the second, and text
after a second separator belongs to neither. -/
theorem C8_parse_separator_rules :
    ∀ a b c t : Str,
      ((':' ∉ a) → (':' ∉ b) → parseCommand (a ++ ':' :: b) = (some a, b)) ∧
      ((':' ∉ a) → (':' ∉ b) →
        parseCommand (a ++ ':' :: (b ++ ':' :: c)) = (some a, b)) ∧
      ((':' ∉ a) → (':' ∉ b) → ('.' ∉ a) → ('.' ∉ b) →
        parseCommand (a ++ '.' :: b) = (some a, b)) ∧
      ((':' ∉ a) → (':' ∉ b) → (':' ∉ c) → ('.' ∉ a) → ('.' ∉ b) →
        parseCommand (a ++ '.' :: (b ++ '.' :: c)) = (some a, b)) ∧
      ((':' ∉ t) → ('.' ∉ t) → parseCommand t = (none, t)) := by
  intro a b c t
  refine ⟨?_, ?_, ?_, ?_, ?_⟩
  · exact fun ha hb => parseCommand_colon ha hb
  · intro ha hb
    have hc1 : strContains (a ++ ':' :: (b ++ ':' :: c)) ':' = true :=
      strContains_iff.mpr (List.mem_append_right _ (List.mem_cons_self _ _))
    simp only [parseCommand, hc1, if_true, splitOnChar_append ha,
      splitOnChar_append hb]
    rfl
  · intro ha hb hda hdb
    have hnm : ':' ∉ a ++ '.' :: b := by
      simp only [List.mem_append, List.mem_cons]
      rintro (h | h | h)
      · exact ha h
      · exact absurd h (by decide)
      · exact hb h
    have hcd : strContains (a ++ '.' :: b) '.' = true :=
      strContains_iff.mpr (List.mem_append_right _ (List.mem_cons_self _ _))
    simp only [parseCommand, strContains_false_of_not_mem hnm, hcd,
      Bool.false_eq_true, if_false, if_true, splitOnChar_append hda,
      splitOnChar_of_not_mem hdb]
    rfl
  · intro ha hb hcc hda hdb
    have hnm : ':' ∉ a ++ '.' :: (b ++ '.' :: c) := by
      simp only [List.mem_append, List.mem_cons]
      rintro (h | h | h | h | h)
      · exact ha h
      · exact absurd h (by decide)
      · exact hb h
      · exact absurd h (by decide)
      · exact hcc h
    have hcd : strContains (a ++ '.' :: (b ++ '.' :: c)) '.' = true :=
      strContains_iff.mpr (List.mem_append_right _ (List.mem_cons_self _ _))
    simp only [parseCommand, strContains_false_of_not_mem hnm, hcd,
      Bool.false_eq_true, if_false, if_true, splitOnChar_append hda,
      splitOnChar_append hdb]
    rfl
  · intro h1 h2
    simp only [parseCommand, strContains_false_of_not_mem h1,
      strContains_false_of_not_mem h2, Bool.false_eq_true, if_false]

theorem C8_witness :
    parseCommand ((("ns")).data ++ ':' :: (("m")).data) =
      (some ((("ns")).data), (("m")).data) :=
  (C8_parse_separator_rules ((("ns")).data) ((("m")).data) [] ((("task")).data)).1
    (by decide) (by decide)

/-- C10: the reserved flags are recognized by membership anywhere in
argv: any argv containing the help flags (or empty) yields the help
action and never reaches command dispatch, and the list and version
flags anywhere likewise preempt command execution. -/
theorem C10_flags_preempt (inst : JsObj) (argv : List Str) :
    ((argvHas argv ((("-h")).data) = true ∨
      argvHas argv ((("--help")).data) = true ∨ argv = []) →
        cliMain inst argv = CliAction.helpA) ∧
    ((argvHas argv ((("-l")).data) = true ∨
      argvHas argv ((("--list")).data) = true) →
        CliAction.isRun (cliMain inst argv) = false) ∧
    (argvHas argv ((("--version")).data) = true →
        CliAction.isRun (cliMain inst argv) = false) := by
  refine ⟨?_, ?_, ?_⟩
  · rintro (h | h | h)
    · simp [cliMain, h]
    · simp [cliMain, h]
    · subst h
      simp [cliMain]
  · intro h
    unfold cliMain
    split_ifs with h1 h2
    · rfl
    · rfl
    all_goals rcases h with h | h <;> simp [h] at h2
  · intro h
    unfold cliMain
    split_ifs with h1 h2
    · rfl
    · rfl
    · rfl

theorem C10_witness :
    cliMain emptyInst [((("-h")).data)] = CliAction.helpA :=
  (C10_flags_preempt emptyInst [((("-h")).data)]).1 (Or.inl (by decide))

/-- C9 counterexample, two concrete methods refuting the claim.  First:
a destructured object with two fields carrying per-field defaults is
split on its internal commas (not only top-level ones) and the fragments
reassemble verbatim, so the per-field defaults survive instead of the
claimed field-names-only rendering.  Second: a destructured object with
one per-field default and NO default on the parameter itself still gains
the default-object suffix — the code tests for an equals sign anywhere
in the fragment, not for the parameter having a default, refuting the
claimed suffix-exactly-when-defaulted rule. -/
theorem C9_per_field_defaults_survive :
    (getMethodSignature ((("foo(c, \x7ba = 1, b = 2\x7d = \x7b\x7d) \x7b")).data)
        ((("foo")).data) =
      (("foo(\x7ba = 1, b = 2\x7d = \x7b\x7d)")).data ∧
    (("foo(\x7ba = 1, b = 2\x7d = \x7b\x7d)")).data ≠
      (("foo(\x7ba, b\x7d = \x7b\x7d)")).data) ∧
    (getMethodSignature ((("bar(c, \x7bverbose = false\x7d) \x7b")).data)
        ((("bar")).data) =
      (("bar(\x7bverbose\x7d = \x7b\x7d)")).data ∧
    (("bar(\x7bverbose\x7d = \x7b\x7d)")).data ≠ (("bar(\x7bverbose\x7d)")).data) :=
  ⟨⟨rfl, by decide⟩, ⟨rfl, by decide⟩⟩

/-- C9 (amended): for every method whose source matches the
reconstructor's declaration pattern and whose parameter list is
non-empty, the rendered signature is built by splitting the cleaned
parameter text on EVERY comma — not only top-level ones — transforming
each fragment, dropping the first fragment and joining the rest with a
comma and a space (first conjunct, over every matching method via the
match result; the second conjunct gives the exact capture for every
word-run name and every parenthesis-free parameter text).  Per
fragment: a comma-free destructured-object fragment is rendered as its
field name without the per-field default, with the default-object
suffix exactly when the fragment's text contains an equals sign — with
an outer default (third conjunct), with only a per-field default
(fourth), and with no suffix when no equals sign occurs (fifth); a
fragment holding an unclosed brace, as the comma split produces from a
multi-field pattern, passes through unchanged except for trimming
(sixth), which is what reassembles a multi-field pattern verbatim with
its per-field defaults intact. -/
theorem C9_signature_rendering :
    (∀ fnString fnName name P : Str,
      matchMethodHead fnString = some (name, P) → jsTrim P ≠ [] →
      getMethodSignature fnString fnName =
        name ++ '(' ::
          (joinSep ((", ")).data
            (((splitOnChar ',' (jsTrim (collapseWs P))).map mapParam).drop 1) ++
            [')'])) ∧
    (∀ name P : Str, name ≠ [] → (∀ c ∈ name, isWordChar c = true) → ')' ∉ P →
      matchMethodHead (name ++ '(' :: (P ++ ((") \x7b")).data)) = some (name, P)) ∧
    (∀ f d : Str, f ≠ [] → d ≠ [] →
      (∀ c ∈ f, isWordChar c = true) → (∀ c ∈ d, isWordChar c = true) →
      mapParam ('{' :: (f ++ ((((" = ")).data) ++ (d ++ '}' :: (((" = \x7b\x7d")).data))))) =
        '{' :: (f ++ '}' :: (((" = \x7b\x7d")).data))) ∧
    (∀ f d : Str, f ≠ [] → d ≠ [] →
      (∀ c ∈ f, isWordChar c = true) → (∀ c ∈ d, isWordChar c = true) →
      mapParam ('{' :: (f ++ ((((" = ")).data) ++ (d ++ '}' :: ([] : Str))))) =
        '{' :: (f ++ '}' :: (((" = \x7b\x7d")).data))) ∧
    (∀ f : Str, f ≠ [] → (∀ c ∈ f, isWordChar c = true) →
      mapParam ('{' :: (f ++ ['}'])) = '{' :: (f ++ ['}'])) ∧
    (∀ g : Str, '}' ∉ g → mapParam ('{' :: g) = jsTrim ('{' :: g)) := by
  refine ⟨?_, ?_, ?_, ?_, ?_, ?_⟩
  · intro fnString fnName name P hm hP
    simp only [getMethodSignature, hm]
    unfold renderSig
    rw [if_neg hP]
  · intro name P hn hw hP
    apply matchMethodHead_word_paren name _ P hn hw
    have h := scanParams_capture hP []
    simpa using h
  · intro f d hf hd hwf hwd
    have h1 : '{' :: (f ++ ((((" = ")).data) ++ (d ++ '}' :: (((" = \x7b\x7d")).data)))) =
        '{' :: ((f ++ ((((" = ")).data) ++
          (d ++ ('}' :: ([' ', '=', ' ', '{'] : Str))))) ++ ['}']) := by
      simp [List.append_assoc]
    refine mapParam_single_field f d _ hf hd hwf hwd ?_
    rw [h1]
    exact jsTrim_of_ends _ (by decide) (by decide)
  · intro f d hf hd hwf hwd
    have h1 : '{' :: (f ++ ((((" = ")).data) ++ (d ++ '}' :: ([] : Str)))) =
        '{' :: ((f ++ ((((" = ")).data) ++ d)) ++ ['}']) := by
      simp [List.append_assoc]
    refine mapParam_single_field f d [] hf hd hwf hwd ?_
    rw [h1]
    exact jsTrim_of_ends _ (by decide) (by decide)
  · exact fun f hf hwf => mapParam_single_field_plain f hf hwf
  · exact fun g hg => mapParam_open_brace g hg

theorem C9_witness :
    getMethodSignature ((("deploy(c, \x7bverbose = false\x7d = \x7b\x7d) \x7b")).data)
        ((("deploy")).data) =
      (("deploy(\x7bverbose\x7d = \x7b\x7d)")).data := by
  have h := C9_signature_rendering.1
    ((("deploy(c, \x7bverbose = false\x7d = \x7b\x7d) \x7b")).data)
    ((("deploy")).data) ((("deploy")).data)
    ((("c, \x7bverbose = false\x7d = \x7b\x7d")).data)
    (by decide) (by decide)
  exact h

end Invokej
